import Mathlib

/-!
# Verification of the startup-option resolution pipeline around `jl_options_t`

The repository artifact under verification is `src/jloptions.h`: the flat
startup-configuration record `jl_options_t` consumed by the runtime during
bootstrap.  The record itself is embedded below as the structure
`jl_options_t` together with its machine-integer representability predicate.

The resolution/validation pipeline (descriptor table, source collector,
resolver, resolved configuration) is not part of the artifact; following the
specification it is modelled here from the spec's own words.  Every such
definition carries a doc comment starting with `Modelled from the spec:`.
-/

/- ### The record from src/jloptions.h -/

/-- Shallow embedding of the C struct `jl_options_t` from `src/jloptions.h`.
Machine integers become `Int`; `const char *` pointers become `Option String`
(nullable); `const char **cmds` becomes `List String`; the
`const int16_t *nthreads_per_pool` array becomes `List Int`.
Field order and names follow the header. -/
structure jl_options_t where
  quiet : Int
  banner : Int
  julia_bindir : Option String
  julia_bin : Option String
  cmds : List String
  image_file : Option String
  cpu_target : Option String
  nthreadpools : Int
  nthreads : Int
  nmarkthreads : Int
  nsweepthreads : Int
  nthreads_per_pool : List Int
  nprocs : Int
  machine_file : Option String
  project : Option String
  program_file : Option String
  isinteractive : Int
  color : Int
  historyfile : Int
  startupfile : Int
  compile_enabled : Int
  code_coverage : Int
  malloc_log : Int
  tracked_path : Option String
  opt_level : Int
  opt_level_min : Int
  debug_level : Int
  check_bounds : Int
  depwarn : Int
  warn_overwrite : Int
  can_inline : Int
  polly : Int
  trace_compile : Option String
  trace_dispatch : Option String
  fast_math : Int
  worker : Int
  cookie : Option String
  handle_signals : Int
  use_experimental_features : Int
  use_sysimage_native_code : Int
  use_compiled_modules : Int
  use_pkgimages : Int
  bindto : Option String
  outputbc : Option String
  outputunoptbc : Option String
  outputo : Option String
  outputasm : Option String
  outputji : Option String
  output_code_coverage : Option String
  incremental : Int
  image_file_specified : Int
  warn_scope : Int
  image_codegen : Int
  rr_detach : Int
  strip_metadata : Int
  strip_ir : Int
  permalloc_pkgimg : Int
  heap_size_hint : Int
  hard_heap_limit : Int
  heap_target_increment : Int
  trace_compile_timing : Int
  trim : Int
  task_metrics : Int
  timeout_for_safepoint_straggler_s : Int
  gc_sweep_always_full : Int

/-- An integer is representable in a signed 8-bit field (`int8_t`). -/
def int8Repr (v : Int) : Prop := -128 ≤ v ∧ v < 128

/-- An integer is representable in a signed 16-bit field (`int16_t`). -/
def int16Repr (v : Int) : Prop := -32768 ≤ v ∧ v < 32768

/-- An integer is representable in a signed 32-bit field (`int32_t`). -/
def int32Repr (v : Int) : Prop := -(2 ^ 31) ≤ v ∧ v < 2 ^ 31

/-- An integer is representable in an unsigned 64-bit field (`uint64_t`). -/
def uint64Repr (v : Int) : Prop := 0 ≤ v ∧ v < 2 ^ 64

/-- Representability of a `jl_options_t` value: every numeric field fits the
C integer width declared for it in `src/jloptions.h`.  The three heap fields
`heap_size_hint`, `hard_heap_limit` and `heap_target_increment` are declared
`uint64_t` (lines 66-68 of the header). -/
def jl_options_repr (o : jl_options_t) : Prop :=
  int8Repr o.quiet ∧ int8Repr o.banner ∧ int8Repr o.nthreadpools ∧
  int16Repr o.nthreads ∧ int16Repr o.nmarkthreads ∧ int8Repr o.nsweepthreads ∧
  (∀ v ∈ o.nthreads_per_pool, int16Repr v) ∧ int32Repr o.nprocs ∧
  int8Repr o.isinteractive ∧ int8Repr o.color ∧ int8Repr o.historyfile ∧
  int8Repr o.startupfile ∧ int8Repr o.compile_enabled ∧
  int8Repr o.code_coverage ∧ int8Repr o.malloc_log ∧ int8Repr o.opt_level ∧
  int8Repr o.opt_level_min ∧ int8Repr o.debug_level ∧
  int8Repr o.check_bounds ∧ int8Repr o.depwarn ∧ int8Repr o.warn_overwrite ∧
  int8Repr o.can_inline ∧ int8Repr o.polly ∧ int8Repr o.fast_math ∧
  int8Repr o.worker ∧ int8Repr o.handle_signals ∧
  int8Repr o.use_experimental_features ∧ int8Repr o.use_sysimage_native_code ∧
  int8Repr o.use_compiled_modules ∧ int8Repr o.use_pkgimages ∧
  int8Repr o.incremental ∧ int8Repr o.image_file_specified ∧
  int8Repr o.warn_scope ∧ int8Repr o.image_codegen ∧ int8Repr o.rr_detach ∧
  int8Repr o.strip_metadata ∧ int8Repr o.strip_ir ∧
  int8Repr o.permalloc_pkgimg ∧ uint64Repr o.heap_size_hint ∧
  uint64Repr o.hard_heap_limit ∧ uint64Repr o.heap_target_increment ∧
  int8Repr o.trace_compile_timing ∧ int8Repr o.trim ∧
  int8Repr o.task_metrics ∧ int16Repr o.timeout_for_safepoint_straggler_s ∧
  int8Repr o.gc_sweep_always_full

/- ### Data model of the resolution pipeline (modelled from the spec) -/

/-- Modelled from the spec: the value kinds of §3, "ValueKind ∈
\x7bBool, Int, UInt, String, StringList, Enum(choices)\x7d". -/
inductive ValueKind where
  | bool
  | int
  | uint
  | string
  | stringList
  | enum (choices : List String)
deriving DecidableEq

/-- Modelled from the spec: a final typed option value, one constructor per
`ValueKind`. -/
inductive Value where
  | bool (b : Bool)
  | int (i : Int)
  | uint (n : Nat)
  | str (s : String)
  | strList (l : List String)
  | enum (choice : String)
deriving DecidableEq

/-- Modelled from the spec: an `OptionDescriptor` (§3) — identifier, value
kind, default value and optional validator.  The precedence class lives on
the sources/candidates. -/
structure OptionDescriptor where
  name : String
  kind : ValueKind
  default : Value
  validator : Option (Value → Bool)

/-- Modelled from the spec: a `RawCandidate` (§3) — option identifier, the
declared precedence of its source (lower number = higher precedence, as in
spec scenario 2 where precedence 1 outranks precedence 2), and the raw
textual value.  The order of the candidate list is the fixed source-list
order of §4.2. -/
structure RawCandidate where
  name : String
  prec : Nat
  raw : String
deriving DecidableEq

/-- Modelled from the spec: the resolution-time error kinds of §7. -/
inductive ResolveError where
  | unknownOption (name : String)
  | sourceReadError (reason : String)
  | typeMismatch (name : String)
  | validationFailed (name : String) (reason : String)
  | consistencyViolation (names : List String) (reason : String)
deriving DecidableEq

/-- Modelled from the spec: a `ResolvedConfiguration` (§3) is a mapping from
option identifier to a final typed value; embedded as an association list in
descriptor-table order. -/
def ResolvedConfiguration : Type := List (String × Value)

/-- Look an identifier up in a resolved configuration (§4.4 `get`). -/
def findValue (name : String) : List (String × Value) → Option Value
  | [] => none
  | (k, v) :: rest => if k = name then some v else findValue name rest

/- ### Parsing and conversion (spec §4.3 step 3) -/

/-- Accumulating decimal parse over a character list; fails on the first
non-digit. -/
def parseDigitsAux : List Char → Nat → Option Nat
  | [], acc => some acc
  | c :: cs, acc =>
    if c.isDigit then parseDigitsAux cs (acc * 10 + (c.toNat - 48))
    else none

/-- Parse a non-empty all-digit character list as a natural number. -/
def parseDigits : List Char → Option Nat
  | [] => none
  | cs => parseDigitsAux cs 0

/-- Parse a decimal natural number; fails on a sign or any non-digit (so
"-5" is not a UInt, as in spec scenario 3). -/
def parseNat (s : String) : Option Nat :=
  parseDigits s.data

/-- Parse a decimal integer with an optional leading minus sign. -/
def parseInt (s : String) : Option Int :=
  match s.data with
  | '-' :: cs => (parseDigits cs).map (fun n => -(n : Int))
  | cs => (parseDigits cs).map (fun n => (n : Int))

/-- Split a character list on commas, accumulating the current field in
reverse. -/
def splitCommaAux : List Char → List Char → List String
  | [], acc => [String.mk acc.reverse]
  | c :: cs, acc =>
    if c = ',' then String.mk acc.reverse :: splitCommaAux cs []
    else splitCommaAux cs (c :: acc)

/-- Split a raw value on commas into the fields of a string list. -/
def splitComma (s : String) : List String :=
  splitCommaAux s.data []

/-- Parse a boolean literal. -/
def parseBool (s : String) : Option Bool :=
  if s = "true" then some true
  else if s = "false" then some false
  else none

/-- Modelled from the spec: §4.3 step 3 — parse/convert a selected raw value
to the descriptor's `ValueKind`; `none` signals the conversion failure that
becomes `TypeMismatch`. -/
def convert (k : ValueKind) (raw : String) : Option Value :=
  match k with
  | .bool =>
    match parseBool raw with
    | some b => some (Value.bool b)
    | none => none
  | .int =>
    match parseInt raw with
    | some i => some (Value.int i)
    | none => none
  | .uint =>
    match parseNat raw with
    | some n => some (Value.uint n)
    | none => none
  | .string => some (Value.str raw)
  | .stringList => some (Value.strList (splitComma raw))
  | .enum choices =>
    if raw ∈ choices then some (Value.enum raw) else none

/-- A typed value conforms to a `ValueKind`. -/
def kindOk (k : ValueKind) (v : Value) : Bool :=
  match k, v with
  | .bool, .bool _ => true
  | .int, .int _ => true
  | .uint, .uint _ => true
  | .string, .str _ => true
  | .stringList, .strList _ => true
  | .enum choices, .enum c => decide (c ∈ choices)
  | _, _ => false

/-- Run a descriptor's validator, if any (§4.3 step 4). -/
def validatorOk (d : OptionDescriptor) (v : Value) : Bool :=
  match d.validator with
  | none => true
  | some f => f v

/- ### Candidate selection (spec §4.3 steps 1-2 and the tie-break rule) -/

/-- The candidates supplied for one option identifier, in source-list
order. -/
def candidatesFor (name : String) (cands : List RawCandidate) :
    List RawCandidate :=
  cands.filter (fun c => c.name = name)

/-- Fold over the remaining candidates keeping the highest-precedence one
(smallest `prec`); on a tie the earlier candidate is kept, which realises
the spec's tie-break rule (earlier in the fixed source list wins). -/
def pickBest (c : RawCandidate) : List RawCandidate → RawCandidate
  | [] => c
  | x :: xs => pickBest (if x.prec < c.prec then x else c) xs

/-- Modelled from the spec: §4.3 step 2 — select the candidate with the
highest precedence source, `none` when no source supplies the option. -/
def selectCandidate (name : String) (cands : List RawCandidate) :
    Option RawCandidate :=
  match candidatesFor name cands with
  | [] => none
  | c :: rest => some (pickBest c rest)

/- ### Per-option resolution (spec §4.3 steps 2-4) -/

/-- Modelled from the spec: resolve a single descriptor — select the best
candidate (or fall back to the default), convert (`TypeMismatch` on
failure), then validate (`ValidationFailed` on failure).  The typed default
is subjected to the same kind and validator checks so that the §3 invariant
(no entry violates its ValueKind or validator) holds for defaulted entries
too. -/
def resolveSelected (d : OptionDescriptor) :
    Option RawCandidate → Except ResolveError Value
  | some c =>
    match convert d.kind c.raw with
    | none => .error (.typeMismatch d.name)
    | some v =>
      if validatorOk d v then .ok v
      else .error (.validationFailed d.name "validator rejected value")
  | none =>
    if kindOk d.kind d.default then
      if validatorOk d d.default then .ok d.default
      else .error (.validationFailed d.name "validator rejected default")
    else .error (.typeMismatch d.name)

/-- Modelled from the spec: §4.3 steps 2-4 for one descriptor — select the
best candidate, then convert and validate it. -/
def resolveOne (d : OptionDescriptor) (cands : List RawCandidate) :
    Except ResolveError Value :=
  resolveSelected d (selectCandidate d.name cands)

/-- Modelled from the spec: resolve every descriptor in table order,
aborting on the first per-option error (steps 3-4 abort resolution as a
whole). -/
def resolveAll (descs : List OptionDescriptor) (cands : List RawCandidate) :
    Except ResolveError (List (String × Value))
  :=
  match descs with
  | [] => .ok []
  | d :: rest =>
    match resolveOne d cands with
    | .error e => .error e
    | .ok v =>
      match resolveAll rest cands with
      | .error e => .error e
      | .ok m => .ok ((d.name, v) :: m)

/- ### Cross-option consistency checks (spec §3 invariants, §4.3 step 5) -/

/-- Sum a string-list of per-pool thread counts; `none` if any element is
not a decimal natural. -/
def sumPoolCounts : List String → Option Nat
  | [] => some 0
  | s :: rest =>
    match parseNat s, sumPoolCounts rest with
    | some n, some m => some (n + m)
    | _, _ => none

/-- Modelled from the spec: the thread-count invariant — when both a total
thread count (`nthreads`) and per-pool thread counts (`nthreads_per_pool`)
are present, the sum of per-pool counts must not exceed the total; a
mismatch is a `ConsistencyViolation` naming both options. -/
def threadCheck (m : List (String × Value)) : Except ResolveError Unit :=
  match findValue "nthreads" m, findValue "nthreads_per_pool" m with
  | some (.int t), some (.strList ss) =>
    match sumPoolCounts ss with
    | some total =>
      if t < (total : Int) then
        .error (.consistencyViolation ["nthreads", "nthreads_per_pool"]
          "sum of per-pool thread counts exceeds total thread count")
      else .ok ()
    | none => .ok ()
  | _, _ => .ok ()

/-- The mutually exclusive output-artifact flags, named after the output
fields of `jl_options_t` (lines 52-56 of the header). -/
def outputFormatFlags : List String :=
  ["outputbc", "outputunoptbc", "outputo", "outputasm", "outputji"]

/-- Modelled from the spec: the output-exclusivity invariant — requesting
two incompatible output formats simultaneously is rejected with a
`ConsistencyViolation` naming the flags that are set. -/
def outputCheck (m : List (String × Value)) : Except ResolveError Unit :=
  let set := outputFormatFlags.filter
    (fun n => findValue n m = some (Value.bool true))
  if 2 ≤ set.length then
    .error (.consistencyViolation set
      "mutually exclusive output formats requested")
  else .ok ()

/-- Modelled from the spec: the heap-increment invariant — where a hard
ceiling exists (`hard_heap_limit` nonzero), the `heap_target_increment`
must not exceed it. -/
def heapCheck (m : List (String × Value)) : Except ResolveError Unit :=
  match findValue "hard_heap_limit" m, findValue "heap_target_increment" m with
  | some (.uint lim), some (.uint inc) =>
    if lim = 0 then .ok ()
    else if lim < inc then
      .error (.consistencyViolation ["hard_heap_limit", "heap_target_increment"]
        "heap target increment exceeds hard heap limit")
    else .ok ()
  | _, _ => .ok ()

/-- Modelled from the spec: §4.3 step 5 — run the cross-option consistency
checks in order, aborting on the first violation. -/
def crossCheck (m : List (String × Value)) : Except ResolveError Unit :=
  match threadCheck m with
  | .error e => .error e
  | .ok _ =>
    match outputCheck m with
    | .error e => .error e
    | .ok _ => heapCheck m

/-- Modelled from the spec: the Resolver contract `resolve(descriptors,
candidates) -> ResolvedConfiguration` (§4.3).  Any failure in steps 3-5
aborts resolution as a whole; the configuration is returned only when every
per-option step and every cross-option check succeeded (all-or-nothing). -/
def resolve (descs : List OptionDescriptor) (cands : List RawCandidate) :
    Except ResolveError (List (String × Value)) :=
  match resolveAll descs cands with
  | .error e => .error e
  | .ok m =>
    match crossCheck m with
    | .error e => .error e
    | .ok _ => .ok m

/- ### Selection lemmas -/

theorem pickBest_mem (xs : List RawCandidate) :
    ∀ c : RawCandidate, pickBest c xs ∈ c :: xs := by
  induction xs with
  | nil => intro c; simp [pickBest]
  | cons x xs ih =>
    intro c
    simp only [pickBest]
    have h := ih (if x.prec < c.prec then x else c)
    by_cases hc : x.prec < c.prec
    · rw [if_pos hc] at h ⊢
      exact List.mem_cons_of_mem _ h
    · rw [if_neg hc] at h ⊢
      rcases List.mem_cons.mp h with h | h
      · rw [h]; exact List.mem_cons_self _ _
      · exact List.mem_cons_of_mem _ (List.mem_cons_of_mem _ h)

theorem pickBest_min (xs : List RawCandidate) :
    ∀ c : RawCandidate, ∀ x ∈ c :: xs, (pickBest c xs).prec ≤ x.prec := by
  induction xs with
  | nil =>
    intro c x hx
    simp at hx
    simp [pickBest, hx]
  | cons y ys ih =>
    intro c x hx
    simp only [pickBest]
    have hb : (pickBest (if y.prec < c.prec then y else c) ys).prec ≤
        (if y.prec < c.prec then y else c).prec :=
      ih _ _ (List.mem_cons_self _ _)
    have hbc : ((if y.prec < c.prec then y else c) : RawCandidate).prec ≤ c.prec := by
      by_cases h : y.prec < c.prec
      · simp [h]; omega
      · simp [h]
    have hby : ((if y.prec < c.prec then y else c) : RawCandidate).prec ≤ y.prec := by
      by_cases h : y.prec < c.prec
      · simp [h]
      · simp [h]; omega
    rcases List.mem_cons.mp hx with rfl | hx
    · omega
    · rcases List.mem_cons.mp hx with rfl | hx
      · omega
      · exact ih _ x (List.mem_cons_of_mem _ hx)

theorem pickBest_eq_self (xs : List RawCandidate) :
    ∀ c : RawCandidate, (∀ x ∈ xs, c.prec ≤ x.prec) → pickBest c xs = c := by
  induction xs with
  | nil => intro c _; rfl
  | cons y ys ih =>
    intro c h
    have hy : c.prec ≤ y.prec := h y (List.mem_cons_self _ _)
    simp only [pickBest]
    have : ¬ y.prec < c.prec := by omega
    rw [if_neg this]
    exact ih c (fun x hx => h x (List.mem_cons_of_mem _ hx))

theorem mem_candidatesFor {c : RawCandidate} {name : String}
    {cands : List RawCandidate} :
    c ∈ candidatesFor name cands ↔ c ∈ cands ∧ c.name = name := by
  simp [candidatesFor, List.mem_filter]

theorem selectCandidate_spec {name : String} {cands : List RawCandidate}
    {c : RawCandidate} (h : selectCandidate name cands = some c) :
    c ∈ cands ∧ c.name = name ∧
      ∀ x ∈ cands, x.name = name → c.prec ≤ x.prec := by
  unfold selectCandidate at h
  rcases hf : candidatesFor name cands with _ | ⟨c0, rest⟩
  · rw [hf] at h; simp at h
  · rw [hf] at h
    have hc : pickBest c0 rest = c := Option.some.inj h
    have hmem : pickBest c0 rest ∈ candidatesFor name cands := by
      rw [hf]; exact pickBest_mem rest c0
    rw [hc] at hmem
    have hspec := mem_candidatesFor.mp hmem
    refine ⟨hspec.1, hspec.2, ?_⟩
    intro x hx hxname
    have hxf : x ∈ candidatesFor name cands := mem_candidatesFor.mpr ⟨hx, hxname⟩
    rw [hf] at hxf
    have hm := pickBest_min rest c0 x hxf
    rw [hc] at hm
    exact hm

theorem selectCandidate_eq_of_strict_min {name : String}
    {cands : List RawCandidate} {c : RawCandidate}
    (hmem : c ∈ cands) (hname : c.name = name)
    (hmin : ∀ x ∈ cands, x.name = name → x ≠ c → c.prec < x.prec) :
    selectCandidate name cands = some c := by
  have hcf : c ∈ candidatesFor name cands := mem_candidatesFor.mpr ⟨hmem, hname⟩
  rcases hf : candidatesFor name cands with _ | ⟨c0, rest⟩
  · rw [hf] at hcf; cases hcf
  · have hsel : selectCandidate name cands = some (pickBest c0 rest) := by
      unfold selectCandidate
      rw [hf]
    have hbmem : pickBest c0 rest ∈ candidatesFor name cands := by
      rw [hf]; exact pickBest_mem rest c0
    have hbspec := mem_candidatesFor.mp hbmem
    have hble : (pickBest c0 rest).prec ≤ c.prec := by
      have : c ∈ c0 :: rest := by rw [← hf]; exact hcf
      exact pickBest_min rest c0 c this
    by_cases heq : pickBest c0 rest = c
    · rw [hsel, heq]
    · have := hmin (pickBest c0 rest) hbspec.1 hbspec.2 heq
      omega

theorem selectCandidate_head {name : String} {cands : List RawCandidate}
    {c : RawCandidate} {rest : List RawCandidate}
    (hf : candidatesFor name cands = c :: rest)
    (hmin : ∀ x ∈ rest, c.prec ≤ x.prec) :
    selectCandidate name cands = some c := by
  simp only [selectCandidate, hf]
  rw [pickBest_eq_self rest c hmin]

theorem selectCandidate_none {name : String} {cands : List RawCandidate}
    (h : ∀ x ∈ cands, x.name ≠ name) :
    selectCandidate name cands = none := by
  have hf : candidatesFor name cands = [] := by
    rcases hf : candidatesFor name cands with _ | ⟨c0, rest⟩
    · rfl
    · have : c0 ∈ candidatesFor name cands := by rw [hf]; exact List.mem_cons_self _ _
      have hc := mem_candidatesFor.mp this
      exact absurd hc.2 (h c0 hc.1)
  unfold selectCandidate
  rw [hf]

/- ### Conversion and per-option resolution lemmas -/

theorem convert_kindOk {k : ValueKind} {s : String} {v : Value}
    (h : convert k s = some v) : kindOk k v = true := by
  cases k with
  | bool =>
    simp only [convert] at h
    split at h
    · cases h; rfl
    · cases h
  | int =>
    simp only [convert] at h
    split at h
    · cases h; rfl
    · cases h
  | uint =>
    simp only [convert] at h
    split at h
    · cases h; rfl
    · cases h
  | string =>
    simp only [convert] at h
    cases h
    rfl
  | stringList =>
    simp only [convert] at h
    cases h
    rfl
  | enum choices =>
    simp only [convert] at h
    split at h
    next hc =>
      cases h
      simp [kindOk, hc]
    next hc => cases h

theorem resolveOne_ok_of_select {d : OptionDescriptor}
    {cands : List RawCandidate} {c : RawCandidate} {v : Value}
    (hsel : selectCandidate d.name cands = some c)
    (hconv : convert d.kind c.raw = some v)
    (hval : validatorOk d v = true) :
    resolveOne d cands = .ok v := by
  simp only [resolveOne, hsel, resolveSelected, hconv, hval, if_true]

theorem resolveOne_typeMismatch {d : OptionDescriptor}
    {cands : List RawCandidate} {c : RawCandidate}
    (hsel : selectCandidate d.name cands = some c)
    (hconv : convert d.kind c.raw = none) :
    resolveOne d cands = .error (.typeMismatch d.name) := by
  simp only [resolveOne, hsel, resolveSelected, hconv]

theorem resolveOne_default {d : OptionDescriptor}
    {cands : List RawCandidate} {v : Value}
    (hsel : selectCandidate d.name cands = none)
    (h : resolveOne d cands = .ok v) : v = d.default := by
  simp only [resolveOne, hsel, resolveSelected] at h
  by_cases hk : kindOk d.kind d.default
  · rw [if_pos hk] at h
    by_cases hv : validatorOk d d.default
    · rw [if_pos hv] at h
      exact (Except.ok.inj h).symm
    · rw [if_neg hv] at h; cases h
  · rw [if_neg hk] at h; cases h

theorem resolveOne_ok_valid {d : OptionDescriptor}
    {cands : List RawCandidate} {v : Value}
    (h : resolveOne d cands = .ok v) :
    kindOk d.kind v = true ∧ validatorOk d v = true := by
  rcases hsel : selectCandidate d.name cands with _ | c
  · simp only [resolveOne, hsel, resolveSelected] at h
    by_cases hk : kindOk d.kind d.default
    · rw [if_pos hk] at h
      by_cases hv : validatorOk d d.default
      · rw [if_pos hv] at h
        rw [← Except.ok.inj h]
        exact ⟨hk, hv⟩
      · rw [if_neg hv] at h; cases h
    · rw [if_neg hk] at h; cases h
  · simp only [resolveOne, hsel, resolveSelected] at h
    rcases hconv : convert d.kind c.raw with _ | w
    · simp only [hconv] at h
      cases h
    · simp only [hconv] at h
      by_cases hv : validatorOk d w
      · rw [if_pos hv] at h
        have hw := Except.ok.inj h
        rw [← hw]
        exact ⟨convert_kindOk hconv, hv⟩
      · rw [if_neg hv] at h; cases h

/- ### Whole-table resolution lemmas -/

theorem resolveAll_keys {descs : List OptionDescriptor}
    {cands : List RawCandidate} {m : List (String × Value)}
    (h : resolveAll descs cands = .ok m) :
    m.map Prod.fst = descs.map OptionDescriptor.name := by
  induction descs generalizing m with
  | nil =>
    simp only [resolveAll] at h
    cases h
    rfl
  | cons d rest ih =>
    simp only [resolveAll] at h
    rcases h1 : resolveOne d cands with e | v
    · simp only [h1] at h
      cases h
    · simp only [h1] at h
      rcases h2 : resolveAll rest cands with e | m2
      · simp only [h2] at h
        cases h
      · simp only [h2] at h
        cases h
        simp only [List.map_cons]
        rw [ih h2]

theorem resolveAll_mem {descs : List OptionDescriptor}
    {cands : List RawCandidate} {m : List (String × Value)}
    (h : resolveAll descs cands = .ok m) {d : OptionDescriptor}
    (hd : d ∈ descs) :
    ∃ v, resolveOne d cands = .ok v ∧ (d.name, v) ∈ m := by
  induction descs generalizing m with
  | nil => cases hd
  | cons d0 rest ih =>
    simp only [resolveAll] at h
    rcases h1 : resolveOne d0 cands with e | v
    · simp only [h1] at h
      cases h
    · simp only [h1] at h
      rcases h2 : resolveAll rest cands with e | m2
      · simp only [h2] at h
        cases h
      · simp only [h2] at h
        cases h
        rcases List.mem_cons.mp hd with rfl | hd2
        · exact ⟨v, h1, List.mem_cons_self _ _⟩
        · obtain ⟨w, hw, hmem⟩ := ih h2 hd2
          exact ⟨w, hw, List.mem_cons_of_mem _ hmem⟩

theorem resolveAll_err {descs : List OptionDescriptor}
    {cands : List RawCandidate} {d : OptionDescriptor} {e : ResolveError}
    (hd : d ∈ descs) (h : resolveOne d cands = .error e) :
    ∃ e2, resolveAll descs cands = .error e2 := by
  induction descs with
  | nil => cases hd
  | cons d0 rest ih =>
    rcases h1 : resolveOne d0 cands with e0 | v
    · exact ⟨e0, by simp only [resolveAll, h1]⟩
    · rcases List.mem_cons.mp hd with rfl | hd2
      · rw [h] at h1; cases h1
      · obtain ⟨e2, h2⟩ := ih hd2
        exact ⟨e2, by simp only [resolveAll, h1, h2]⟩

theorem resolveAll_append_err (pre : List OptionDescriptor)
    {post : List OptionDescriptor} {d : OptionDescriptor}
    {cands : List RawCandidate} {e : ResolveError}
    (hpre : ∀ d2 ∈ pre, ∃ v, resolveOne d2 cands = .ok v)
    (h : resolveOne d cands = .error e) :
    resolveAll (pre ++ d :: post) cands = .error e := by
  induction pre with
  | nil => simp only [List.nil_append, resolveAll, h]
  | cons p ps ih =>
    obtain ⟨v, hv⟩ := hpre p (List.mem_cons_self _ _)
    have hrest := ih (fun d2 hd2 => hpre d2 (List.mem_cons_of_mem _ hd2))
    have key : resolveAll ((p :: ps) ++ d :: post) cands =
        match resolveAll (ps ++ d :: post) cands with
        | .error e2 => .error e2
        | .ok m => .ok ((p.name, v) :: m) := by
      show resolveAll (p :: (ps ++ d :: post)) cands = _
      simp only [resolveAll, hv]
    rw [key, hrest]

theorem findValue_eq_of_mem {m : List (String × Value)} {k : String}
    {v : Value} (hnd : (m.map Prod.fst).Nodup) (hmem : (k, v) ∈ m) :
    findValue k m = some v := by
  induction m with
  | nil => cases hmem
  | cons p rest ih =>
    obtain ⟨k0, v0⟩ := p
    simp only [List.map_cons, List.nodup_cons] at hnd
    rcases List.mem_cons.mp hmem with heq | hmem2
    · cases heq
      simp [findValue]
    · by_cases hk : k0 = k
      · exfalso
        apply hnd.1
        rw [hk]
        exact List.mem_map.mpr ⟨(k, v), hmem2, rfl⟩
      · simp only [findValue, if_neg hk]
        exact ih hnd.2 hmem2

theorem resolve_ok_inv {descs : List OptionDescriptor}
    {cands : List RawCandidate} {m : List (String × Value)}
    (h : resolve descs cands = .ok m) :
    resolveAll descs cands = .ok m ∧ crossCheck m = .ok () := by
  unfold resolve at h
  split at h
  next e heq => cases h
  next m2 heq =>
    split at h
    next e2 heq2 => cases h
    next u heq2 =>
      cases h
      cases u
      exact ⟨heq, heq2⟩

theorem resolve_err_of_all {descs : List OptionDescriptor}
    {cands : List RawCandidate} {e : ResolveError}
    (h : resolveAll descs cands = .error e) :
    resolve descs cands = .error e := by
  simp only [resolve, h]

theorem resolve_err_of_cross {descs : List OptionDescriptor}
    {cands : List RawCandidate} {m : List (String × Value)} {e : ResolveError}
    (hall : resolveAll descs cands = .ok m) (h : crossCheck m = .error e) :
    resolve descs cands = .error e := by
  simp only [resolve, hall, h]

theorem resolve_lookup {descs : List OptionDescriptor}
    {cands : List RawCandidate} {m : List (String × Value)}
    (h : resolve descs cands = .ok m)
    (hnd : (descs.map OptionDescriptor.name).Nodup)
    {d : OptionDescriptor} (hd : d ∈ descs) :
    ∃ v, resolveOne d cands = .ok v ∧ findValue d.name m = some v := by
  obtain ⟨hall, _⟩ := resolve_ok_inv h
  obtain ⟨v, hv, hmem⟩ := resolveAll_mem hall hd
  refine ⟨v, hv, ?_⟩
  have hkeys := resolveAll_keys hall
  exact findValue_eq_of_mem (by rw [hkeys]; exact hnd) hmem

theorem resolveOne_ok_convert {d : OptionDescriptor}
    {cands : List RawCandidate} {c : RawCandidate} {v : Value}
    (hsel : selectCandidate d.name cands = some c)
    (h : resolveOne d cands = .ok v) : convert d.kind c.raw = some v := by
  simp only [resolveOne, hsel, resolveSelected] at h
  split at h
  next heq => cases h
  next w heq =>
    by_cases hv : validatorOk d w
    · rw [if_pos hv] at h
      rw [heq, Except.ok.inj h]
    · rw [if_neg hv] at h; cases h

/- ### Cross-check lemmas -/

theorem threadCheck_err {m : List (String × Value)} {t : Int}
    {ss : List String} {total : Nat}
    (ht : findValue "nthreads" m = some (.int t))
    (hp : findValue "nthreads_per_pool" m = some (.strList ss))
    (hs : sumPoolCounts ss = some total)
    (hlt : t < (total : Int)) :
    threadCheck m = .error (.consistencyViolation
      ["nthreads", "nthreads_per_pool"]
      "sum of per-pool thread counts exceeds total thread count") := by
  simp only [threadCheck, ht, hp, hs]
  rw [if_pos hlt]

theorem crossCheck_err_thread {m : List (String × Value)} {e : ResolveError}
    (h : threadCheck m = .error e) : crossCheck m = .error e := by
  simp only [crossCheck, h]

theorem crossCheck_err_output {m : List (String × Value)} {e : ResolveError}
    (ht : threadCheck m = .ok ()) (h : outputCheck m = .error e) :
    crossCheck m = .error e := by
  simp only [crossCheck, ht, h]

theorem crossCheck_ok_heap {m : List (String × Value)}
    (h : crossCheck m = .ok ()) : heapCheck m = .ok () := by
  unfold crossCheck at h
  split at h
  next e heq => cases h
  next u heq =>
    split at h
    next e2 heq2 => cases h
    next u2 heq2 => exact h

theorem two_mem_length_le {α : Type} {l : List α} {a b : α}
    (ha : a ∈ l) (hb : b ∈ l) (hne : a ≠ b) : 2 ≤ l.length := by
  cases l with
  | nil => cases ha
  | cons x xs =>
    cases xs with
    | nil =>
      simp at ha hb
      exact absurd (ha.trans hb.symm) hne
    | cons y ys =>
      simp only [List.length_cons]
      omega

theorem outputCheck_err {m : List (String × Value)} {f1 f2 : String}
    (h1 : f1 ∈ outputFormatFlags) (h2 : f2 ∈ outputFormatFlags)
    (hne : f1 ≠ f2)
    (hv1 : findValue f1 m = some (.bool true))
    (hv2 : findValue f2 m = some (.bool true)) :
    ∃ names, outputCheck m = .error (.consistencyViolation names
        "mutually exclusive output formats requested") ∧
      f1 ∈ names ∧ f2 ∈ names := by
  have hm1 : f1 ∈ outputFormatFlags.filter
      (fun n => findValue n m = some (Value.bool true)) :=
    List.mem_filter.mpr ⟨h1, by simp [hv1]⟩
  have hm2 : f2 ∈ outputFormatFlags.filter
      (fun n => findValue n m = some (Value.bool true)) :=
    List.mem_filter.mpr ⟨h2, by simp [hv2]⟩
  have hlen := two_mem_length_le hm1 hm2 hne
  refine ⟨_, ?_, hm1, hm2⟩
  simp only [outputCheck]
  rw [if_pos hlen]

theorem heapCheck_ok_le {m : List (String × Value)} {lim inc : Nat}
    (hl : findValue "hard_heap_limit" m = some (.uint lim))
    (hi : findValue "heap_target_increment" m = some (.uint inc))
    (hnz : lim ≠ 0) (h : heapCheck m = .ok ()) : inc ≤ lim := by
  simp only [heapCheck, hl, hi] at h
  rw [if_neg hnz] at h
  by_cases hlt : lim < inc
  · rw [if_pos hlt] at h; cases h
  · omega

theorem count_eq_one_of_nodup_mem {α : Type} [DecidableEq α] {l : List α}
    {a : α} (hnd : l.Nodup) (ha : a ∈ l) : l.count a = 1 := by
  induction l with
  | nil => cases ha
  | cons x xs ih =>
    simp only [List.nodup_cons] at hnd
    rcases List.mem_cons.mp ha with rfl | ha2
    · rw [List.count_cons_self]
      rw [List.count_eq_zero_of_not_mem hnd.1]
    · have hax : a ≠ x := fun heq => hnd.1 (heq ▸ ha2)
      rw [List.count_cons_of_ne hax]
      exact ih hnd.2 ha2

/- ### Claim theorems -/

/-- C1: all-or-nothing — if any single option fails conversion or validation
during resolve (a `resolveOne` error), or a cross-option consistency check
fails, then `resolve` returns an error; no `ResolvedConfiguration` is
produced, and since the result type carries either one complete
configuration or one error, not even a partial mapping can be surfaced. -/
theorem C1_all_or_nothing {descs : List OptionDescriptor}
    {cands : List RawCandidate}
    (h : (∃ d ∈ descs, ∃ e, resolveOne d cands = .error e) ∨
      (∃ m, resolveAll descs cands = .ok m ∧ ∃ e, crossCheck m = .error e)) :
    ∃ e2, resolve descs cands = .error e2 := by
  rcases h with ⟨d, hd, e, he⟩ | ⟨m, hm, e, he⟩
  · obtain ⟨e2, h2⟩ := resolveAll_err hd he
    exact ⟨e2, resolve_err_of_all h2⟩
  · exact ⟨e, resolve_err_of_cross hm he⟩

/-- C2: precedence — when option `d` is supplied by a candidate `c` whose
source strictly outranks every other source supplying `d` (smaller `prec`
number means higher precedence), a successful `resolve` maps `d` to the
converted value of `c`; the higher-precedence source wins. -/
theorem C2_precedence {descs : List OptionDescriptor}
    {cands : List RawCandidate} {m : List (String × Value)}
    {d : OptionDescriptor} {c : RawCandidate}
    (h : resolve descs cands = .ok m)
    (hnd : (descs.map OptionDescriptor.name).Nodup)
    (hd : d ∈ descs)
    (hc : c ∈ cands) (hcn : c.name = d.name)
    (hmin : ∀ x ∈ cands, x.name = d.name → x ≠ c → c.prec < x.prec) :
    ∃ v, convert d.kind c.raw = some v ∧ findValue d.name m = some v := by
  obtain ⟨v, hres, hfind⟩ := resolve_lookup h hnd hd
  have hsel := selectCandidate_eq_of_strict_min hc hcn hmin
  exact ⟨v, resolveOne_ok_convert hsel hres, hfind⟩

/-- C3: completeness and validity — for every descriptor `d` of the table, a
successful `resolve` yields a configuration with exactly one entry keyed by
`d.name`, and the entry's value conforms to `d`'s `ValueKind` and passes
`d`'s validator. -/
theorem C3_completeness {descs : List OptionDescriptor}
    {cands : List RawCandidate} {m : List (String × Value)}
    (h : resolve descs cands = .ok m)
    (hnd : (descs.map OptionDescriptor.name).Nodup) :
    ∀ d ∈ descs, (m.map Prod.fst).count d.name = 1 ∧
      ∃ v, findValue d.name m = some v ∧ kindOk d.kind v = true ∧
        validatorOk d v = true := by
  intro d hd
  obtain ⟨v, hres, hfind⟩ := resolve_lookup h hnd hd
  have hvalid := resolveOne_ok_valid hres
  have hkeys := resolveAll_keys (resolve_ok_inv h).1
  constructor
  · rw [hkeys]
    exact count_eq_one_of_nodup_mem hnd (List.mem_map.mpr ⟨d, hd, rfl⟩)
  · exact ⟨v, hfind, hvalid⟩

/-- C4: determinism and idempotence — `resolve` is a pure function of the
descriptor table and the candidate list, so any two invocations on equal
inputs produce equal results (the same configuration or the same error);
in particular resolving the same source set twice yields equal results. -/
theorem C4_deterministic (descs1 descs2 : List OptionDescriptor)
    (cands1 cands2 : List RawCandidate)
    (hd : descs1 = descs2) (hc : cands1 = cands2) :
    resolve descs1 cands1 = resolve descs2 cands2 := by
  rw [hd, hc]

/-- C5: tie-break stability — when the earliest candidate `c` for option `d`
in the fixed source list has precedence at least as high as every later
candidate for `d` (in particular when later sources have *equal* declared
precedence), a successful `resolve` maps `d` to the converted value of `c`:
the source encountered earlier wins deterministically. -/
theorem C5_tiebreak {descs : List OptionDescriptor}
    {cands : List RawCandidate} {m : List (String × Value)}
    {d : OptionDescriptor} {c : RawCandidate} {rest : List RawCandidate}
    (h : resolve descs cands = .ok m)
    (hnd : (descs.map OptionDescriptor.name).Nodup)
    (hd : d ∈ descs)
    (hf : candidatesFor d.name cands = c :: rest)
    (hprec : ∀ x ∈ rest, c.prec ≤ x.prec) :
    ∃ v, convert d.kind c.raw = some v ∧ findValue d.name m = some v := by
  obtain ⟨v, hres, hfind⟩ := resolve_lookup h hnd hd
  have hsel := selectCandidate_head hf hprec
  exact ⟨v, resolveOne_ok_convert hsel hres, hfind⟩

/-- C6: thread-count consistency — when the per-option phase resolves both a
total thread count (`nthreads`) and per-pool counts (`nthreads_per_pool`)
whose sum exceeds the total, `resolve` fails with a `ConsistencyViolation`
naming both options; the mismatch is never overridden into a successful
configuration. -/
theorem C6_thread_consistency {descs : List OptionDescriptor}
    {cands : List RawCandidate} {m : List (String × Value)} {t : Int}
    {ss : List String} {total : Nat}
    (hall : resolveAll descs cands = .ok m)
    (ht : findValue "nthreads" m = some (.int t))
    (hp : findValue "nthreads_per_pool" m = some (.strList ss))
    (hs : sumPoolCounts ss = some total)
    (hlt : t < (total : Int)) :
    resolve descs cands = .error (.consistencyViolation
      ["nthreads", "nthreads_per_pool"]
      "sum of per-pool thread counts exceeds total thread count") :=
  resolve_err_of_cross hall
    (crossCheck_err_thread (threadCheck_err ht hp hs hlt))

/-- C7: type mismatch — when the selected raw value for option `d` cannot be
converted to `d`'s `ValueKind` (for example "-5" for a UInt option) and
every descriptor before `d` in the table resolves, `resolve` fails with
`TypeMismatch` for `d` and no configuration is produced. -/
theorem C7_type_mismatch {pre post : List OptionDescriptor}
    {d : OptionDescriptor} {cands : List RawCandidate} {c : RawCandidate}
    (hpre : ∀ d2 ∈ pre, ∃ v, resolveOne d2 cands = .ok v)
    (hsel : selectCandidate d.name cands = some c)
    (hconv : convert d.kind c.raw = none) :
    resolve (pre ++ d :: post) cands = .error (.typeMismatch d.name) :=
  resolve_err_of_all
    (resolveAll_append_err pre hpre (resolveOne_typeMismatch hsel hconv))

/-- C8: mutually exclusive output formats — when two distinct output-format
flags both resolve to `true` (and the thread-count check passes), `resolve`
fails with a `ConsistencyViolation` naming the conflicting flags rather than
producing a configuration with both selections set. -/
theorem C8_output_exclusive {descs : List OptionDescriptor}
    {cands : List RawCandidate} {m : List (String × Value)} {f1 f2 : String}
    (hall : resolveAll descs cands = .ok m)
    (hth : threadCheck m = .ok ())
    (h1 : f1 ∈ outputFormatFlags) (h2 : f2 ∈ outputFormatFlags)
    (hne : f1 ≠ f2)
    (hv1 : findValue f1 m = some (.bool true))
    (hv2 : findValue f2 m = some (.bool true)) :
    ∃ names, resolve descs cands = .error (.consistencyViolation names
        "mutually exclusive output formats requested") ∧
      f1 ∈ names ∧ f2 ∈ names := by
  obtain ⟨names, hout, hm1, hm2⟩ := outputCheck_err h1 h2 hne hv1 hv2
  exact ⟨names, resolve_err_of_cross hall (crossCheck_err_output hth hout),
    hm1, hm2⟩

/-- C9: default fallback — when no source supplies any candidate for
descriptor `d`, a successful `resolve` maps `d` to its declared default
value. -/
theorem C9_default {descs : List OptionDescriptor}
    {cands : List RawCandidate} {m : List (String × Value)}
    {d : OptionDescriptor}
    (h : resolve descs cands = .ok m)
    (hnd : (descs.map OptionDescriptor.name).Nodup)
    (hd : d ∈ descs)
    (hnone : ∀ x ∈ cands, x.name ≠ d.name) :
    findValue d.name m = some d.default := by
  obtain ⟨v, hres, hfind⟩ := resolve_lookup h hnd hd
  have hsel := selectCandidate_none hnone
  rw [← resolveOne_default hsel hres]
  exact hfind

/-- C10: heap increment bounds — in the `jl_options_t` record the heap
quantities are unsigned 64-bit fields, so every representable value is
non-negative; and in any successful resolution, a resolved
`heap_target_increment` is non-negative and, when a hard ceiling exists
(nonzero `hard_heap_limit`), does not exceed that ceiling. -/
theorem C10_heap_bounds :
    (∀ o : jl_options_t, jl_options_repr o →
      0 ≤ o.heap_target_increment ∧ 0 ≤ o.hard_heap_limit ∧
        0 ≤ o.heap_size_hint) ∧
    (∀ (descs : List OptionDescriptor) (cands : List RawCandidate)
      (m : List (String × Value)) (lim inc : Nat),
      resolve descs cands = .ok m →
      findValue "hard_heap_limit" m = some (.uint lim) →
      findValue "heap_target_increment" m = some (.uint inc) →
      (0 : Int) ≤ (inc : Int) ∧ (lim ≠ 0 → inc ≤ lim)) := by
  constructor
  · intro o ho
    unfold jl_options_repr uint64Repr int8Repr int16Repr int32Repr at ho
    omega
  · intro descs cands m lim inc h hl hi
    refine ⟨by omega, fun hnz => ?_⟩
    exact heapCheck_ok_le hl hi hnz (crossCheck_ok_heap (resolve_ok_inv h).2)

/- ### Concrete demonstration inputs -/

/-- Demo descriptor from spec scenario 1: `nthreads: Int, default=1`. -/
def dNthreads : OptionDescriptor :=
  ⟨"nthreads", ValueKind.int, Value.int 1, none⟩

/-- Demo descriptor for the per-pool thread counts. -/
def dPools : OptionDescriptor :=
  ⟨"nthreads_per_pool", ValueKind.stringList, Value.strList [], none⟩

/-- Demo descriptor from spec scenario 3: `heap_target_increment: UInt`. -/
def dHeapInc : OptionDescriptor :=
  ⟨"heap_target_increment", ValueKind.uint, Value.uint 0, none⟩

/-- Demo descriptor for the hard heap limit. -/
def dHeapLim : OptionDescriptor :=
  ⟨"hard_heap_limit", ValueKind.uint, Value.uint 0, none⟩

/-- Demo descriptor for the `outputbc` output-format flag. -/
def dOutputBc : OptionDescriptor :=
  ⟨"outputbc", ValueKind.bool, Value.bool false, none⟩

/-- Demo descriptor for the `outputo` output-format flag. -/
def dOutputO : OptionDescriptor :=
  ⟨"outputo", ValueKind.bool, Value.bool false, none⟩

/-- Demo `jl_options_t` value with every numeric field zero and every
pointer field null/empty. -/
def demoOptions : jl_options_t :=
  ⟨0, 0, none, none, [], none, none, 0, 0, 0, 0, [], 0, none, none, none,
   0, 0, 0, 0, 0, 0, 0, none, 0, 0, 0, 0, 0, 0, 0, 0, none, none, 0, 0,
   none, 0, 0, 0, 0, 0, none, none, none, none, none, none, none, 0, 0, 0,
   0, 0, 0, 0, 0, 0, 0, 0, 0, 0, 0, 0, 0⟩

/- ### Witnesses -/

/-- Witness for C1 at a concrete failing input: "abc" is not an Int. -/
theorem C1_all_or_nothing_witness :
    (∃ d ∈ [dNthreads], ∃ e,
      resolveOne d [⟨"nthreads", 1, "abc"⟩] = .error e) ∧
    ∃ e2, resolve [dNthreads] [⟨"nthreads", 1, "abc"⟩] = .error e2 :=
  ⟨⟨dNthreads, List.mem_cons_self _ _,
    ResolveError.typeMismatch "nthreads", rfl⟩,
   C1_all_or_nothing (Or.inl ⟨dNthreads, List.mem_cons_self _ _,
     ResolveError.typeMismatch "nthreads", rfl⟩)⟩

/-- Witness for C2 at spec scenario 2: CLI (precedence 1) beats env
(precedence 2), so `nthreads` resolves to 8. -/
theorem C2_precedence_witness :
    ((⟨"nthreads", 1, "8"⟩ : RawCandidate).prec <
      (⟨"nthreads", 2, "4"⟩ : RawCandidate).prec) ∧
    ∃ v, convert dNthreads.kind "8" = some v ∧
      findValue dNthreads.name [("nthreads", Value.int 8)] = some v :=
  ⟨by decide,
   @C2_precedence [dNthreads] [⟨"nthreads", 2, "4"⟩, ⟨"nthreads", 1, "8"⟩]
     [("nthreads", Value.int 8)] dNthreads ⟨"nthreads", 1, "8"⟩
     rfl (by decide) (List.mem_cons_self _ _) (by decide) rfl (by decide)⟩

/-- Witness for C3 at a one-descriptor table with no candidates. -/
theorem C3_completeness_witness :
    ([("nthreads", Value.int 1)].map Prod.fst).count dNthreads.name = 1 ∧
    ∃ v, findValue dNthreads.name [("nthreads", Value.int 1)] = some v ∧
      kindOk dNthreads.kind v = true ∧ validatorOk dNthreads v = true :=
  @C3_completeness [dNthreads] [] [("nthreads", Value.int 1)] rfl (by decide)
    dNthreads (List.mem_cons_self _ _)

/-- Witness for C4: resolving the same source set twice yields equal
results. -/
theorem C4_deterministic_witness :
    resolve [dNthreads] [] = resolve [dNthreads] [] :=
  C4_deterministic [dNthreads] [dNthreads] [] [] rfl rfl

/-- Witness for C5: two equal-precedence candidates for `nthreads`; the one
listed earlier ("4") wins. -/
theorem C5_tiebreak_witness :
    ((⟨"nthreads", 1, "4"⟩ : RawCandidate).prec =
      (⟨"nthreads", 1, "8"⟩ : RawCandidate).prec) ∧
    ∃ v, convert dNthreads.kind "4" = some v ∧
      findValue dNthreads.name [("nthreads", Value.int 4)] = some v :=
  ⟨rfl,
   @C5_tiebreak [dNthreads] [⟨"nthreads", 1, "4"⟩, ⟨"nthreads", 1, "8"⟩]
     [("nthreads", Value.int 4)] dNthreads ⟨"nthreads", 1, "4"⟩
     [⟨"nthreads", 1, "8"⟩] rfl (by decide) (List.mem_cons_self _ _) rfl
     (by decide)⟩

/-- Witness for C6 at spec scenario 4: `nthreads=4`, per-pool `[2,3]`
(sum 5 > 4) yields the `ConsistencyViolation` naming both options. -/
theorem C6_thread_consistency_witness :
    sumPoolCounts ["2", "3"] = some 5 ∧
    resolve [dNthreads, dPools]
        [⟨"nthreads", 1, "4"⟩, ⟨"nthreads_per_pool", 1, "2,3"⟩] =
      .error (.consistencyViolation ["nthreads", "nthreads_per_pool"]
        "sum of per-pool thread counts exceeds total thread count") :=
  ⟨rfl,
   @C6_thread_consistency [dNthreads, dPools]
     [⟨"nthreads", 1, "4"⟩, ⟨"nthreads_per_pool", 1, "2,3"⟩]
     [("nthreads", Value.int 4), ("nthreads_per_pool", Value.strList ["2", "3"])]
     4 ["2", "3"] 5 rfl rfl rfl rfl (by decide)⟩

/-- Witness for C7 at spec scenario 3: "-5" supplied for the UInt option
`heap_target_increment` yields `TypeMismatch`. -/
theorem C7_type_mismatch_witness :
    convert dHeapInc.kind "-5" = none ∧
    resolve [dHeapInc] [⟨"heap_target_increment", 1, "-5"⟩] =
      .error (.typeMismatch "heap_target_increment") :=
  ⟨rfl,
   @C7_type_mismatch [] [] dHeapInc [⟨"heap_target_increment", 1, "-5"⟩]
     ⟨"heap_target_increment", 1, "-5"⟩
     (fun d2 h2 => absurd h2 (List.not_mem_nil d2)) rfl rfl⟩

/-- Witness for C8 at spec scenario 5: two output-format flags both set true
yield a `ConsistencyViolation` naming both. -/
theorem C8_output_exclusive_witness :
    "outputbc" ∈ outputFormatFlags ∧ "outputo" ∈ outputFormatFlags ∧
    ∃ names, resolve [dOutputBc, dOutputO]
        [⟨"outputbc", 1, "true"⟩, ⟨"outputo", 1, "true"⟩] =
      .error (.consistencyViolation names
        "mutually exclusive output formats requested") ∧
      "outputbc" ∈ names ∧ "outputo" ∈ names :=
  ⟨by decide, by decide,
   @C8_output_exclusive [dOutputBc, dOutputO]
     [⟨"outputbc", 1, "true"⟩, ⟨"outputo", 1, "true"⟩]
     [("outputbc", Value.bool true), ("outputo", Value.bool true)]
     "outputbc" "outputo" rfl rfl (by decide) (by decide) (by decide)
     rfl rfl⟩

/-- Witness for C9 at spec scenario 1: no source supplies `nthreads`, so it
resolves to the default 1. -/
theorem C9_default_witness :
    findValue dNthreads.name [("nthreads", Value.int 1)] =
      some dNthreads.default :=
  @C9_default [dNthreads] [] [("nthreads", Value.int 1)] dNthreads rfl
    (by decide) (List.mem_cons_self _ _)
    (fun x hx => absurd hx (List.not_mem_nil x))

/-- Witness for C10: a representable record has non-negative heap fields,
and a successful resolution with limit 10 and increment 5 satisfies the
bound. -/
theorem C10_heap_bounds_witness :
    jl_options_repr demoOptions ∧
    (0 ≤ demoOptions.heap_target_increment ∧
      0 ≤ demoOptions.hard_heap_limit ∧ 0 ≤ demoOptions.heap_size_hint) ∧
    ((0 : Int) ≤ ((5 : Nat) : Int) ∧ ((10 : Nat) ≠ 0 → (5 : Nat) ≤ 10)) :=
  have hrepr : jl_options_repr demoOptions := by
    simp [jl_options_repr, int8Repr, int16Repr, int32Repr, uint64Repr,
      demoOptions]
  ⟨hrepr, C10_heap_bounds.1 demoOptions hrepr,
   C10_heap_bounds.2 [dHeapLim, dHeapInc]
     [⟨"hard_heap_limit", 1, "10"⟩, ⟨"heap_target_increment", 1, "5"⟩]
     [("hard_heap_limit", Value.uint 10),
      ("heap_target_increment", Value.uint 5)]
     10 5 rfl rfl rfl⟩
